import Mathlib

/-!
Verification of the Kaleido lexer core (src/lib/lexer/lex.rs, tokens.rs, error.rs).

The Rust code is a nom-based scanner over `&[u8]`.  We embed it shallowly:

* a byte slice is a `List Nat` (each entry one byte, `< 256` for real inputs,
  though none of the definitions need that bound);
* a nom parser `Fn(&[u8]) -> IResult<&[u8], T>` becomes `List Nat → Option (List Nat × T)`,
  where `none` models `Err(..)` (all parsers in the source are `complete`
  variants, so `Incomplete` never arises) and `some (rest, value)` models
  `Ok((rest, value))`;
* the fallible conversion helpers (`convert_slice_to_*`) return
  `Except ParseError _`, mirroring `Result<_, ParseError>` in the source;
* a Rust `String` is modelled by its UTF-8 byte content (a `List Nat` that
  passed validation), a Rust `char` by its Unicode scalar value (a `Nat`);
* `f64` parsing of a decimal literal is modelled as the exact decimal
  rational (`mkRat`): binary floating-point rounding is abstracted away,
  which is faithful for the token-classification and sign questions the
  specification asks about;
* Rust panics (out-of-bounds slice indexing in `tokens.rs`) are modelled as
  `none` of an `Option`-valued operation, kept distinct from error RETURNS,
  which are modelled with `Except`.
-/

-- ## Byte classes (nom's `digit1`, `alpha1`, `alphanumeric1`, `multispace0`
-- on `&[u8]` use these ASCII classes)

def isDigitByte (b : Nat) : Bool := 48 ≤ b && b ≤ 57

def isAlphaByte (b : Nat) : Bool := (65 ≤ b && b ≤ 90) || (97 ≤ b && b ≤ 122)

def isAlphaNumByte (b : Nat) : Bool := isAlphaByte b || isDigitByte b

def isSpaceByte (b : Nat) : Bool := b = 32 || b = 9 || b = 13 || b = 10

/-- Byte content of an ASCII string literal (used to write the fixed
recognizer strings of the source readably). -/
def strBytes (s : String) : List Nat := s.data.map Char.toNat

-- ## The nom combinators used by lex.rs, specialised to byte input

/-- Shallow embedding of `Fn(&[u8]) -> IResult<&[u8], α>`. -/
abbrev P (α : Type) : Type := List Nat → Option (List Nat × α)

/-- nom's `map`. -/
def pmap (p : P α) (f : α → β) : P β := fun i =>
  match p i with
  | none => none
  | some (r, o) => some (r, f o)

/-- nom's `map_res`: a conversion failure becomes a parse failure. -/
def pmapRes (p : P α) (f : α → Except ε β) : P β := fun i =>
  match p i with
  | none => none
  | some (r, o) =>
    match f o with
    | Except.error _ => none
    | Except.ok b => some (r, b)

/-- nom's `alt` over a list of alternatives, tried in order. -/
def altList (ps : List (P α)) : P α := fun i =>
  match ps with
  | [] => none
  | p :: rest =>
    match p i with
    | none => altList rest i
    | r => r

/-- Two-way `alt`. -/
def alt2 (p q : P α) : P α := altList [p, q]

/-- nom's `tag`. -/
def tagP (s : List Nat) : P (List Nat) := fun i =>
  if i.take s.length = s then some (i.drop s.length, s) else none

/-- nom's `bytes::complete::take(n)`. -/
def takeP (n : Nat) : P (List Nat) := fun i =>
  if n ≤ i.length then some (i.drop n, i.take n) else none

/-- nom's `character::complete::char` on byte input. -/
def charP (c : Nat) : P Nat := fun i =>
  match i with
  | [] => none
  | b :: r => if b = c then some (r, c) else none

/-- nom's `one_of`. -/
def oneOfP (cs : List Nat) : P Nat := fun i =>
  match i with
  | [] => none
  | b :: r => if b ∈ cs then some (r, b) else none

/-- nom's `peek`: run the parser but consume nothing. -/
def peekP (p : P α) : P α := fun i =>
  match p i with
  | none => none
  | some (_, o) => some (i, o)

/-- nom's `opt`. -/
def optP (p : P α) : P (Option α) := fun i =>
  match p i with
  | none => some (i, none)
  | some (r, o) => some (r, some o)

/-- nom's `pair`. -/
def pairP (p : P α) (q : P β) : P (α × β) := fun i =>
  match p i with
  | none => none
  | some (r, a) =>
    match q r with
    | none => none
    | some (r2, b) => some (r2, (a, b))

/-- nom's `tuple` for three components. -/
def tuple3P (p : P α) (q : P β) (s : P γ) : P (α × β × γ) := fun i =>
  match p i with
  | none => none
  | some (r, a) =>
    match q r with
    | none => none
    | some (r2, b) =>
      match s r2 with
      | none => none
      | some (r3, c) => some (r3, (a, b, c))

/-- nom's `delimited`. -/
def delimitedP (p : P α) (q : P β) (s : P γ) : P β := fun i =>
  match p i with
  | none => none
  | some (r, _) =>
    match q r with
    | none => none
    | some (r2, b) =>
      match s r2 with
      | none => none
      | some (r3, _) => some (r3, b)

/-- nom's `recognize`: the output is the consumed input prefix.  All parsers
of this development return a suffix of their input, so the consumed prefix is
the first `i.length - r.length` bytes. -/
def recognizeP (p : P α) : P (List Nat) := fun i =>
  match p i with
  | none => none
  | some (r, _) => some (r, i.take (i.length - r.length))

/-- Maximal run of at least one byte satisfying `f` (the shape of nom's
`digit1`, `alpha1`, `alphanumeric1` on bytes). -/
def span1 (f : Nat → Bool) : P (List Nat) := fun i =>
  if (i.takeWhile f).isEmpty then none
  else some (i.drop (i.takeWhile f).length, i.takeWhile f)

def digit1 : P (List Nat) := span1 isDigitByte

def alpha1 : P (List Nat) := span1 isAlphaByte

def alphanumeric1 : P (List Nat) := span1 isAlphaNumByte

/-- nom's `multispace0`: always succeeds, consuming the maximal run of
`' '`, `'\t'`, `'\r'`, `'\n'`. -/
def multispace0 : P (List Nat) := fun i =>
  some (i.drop (i.takeWhile isSpaceByte).length, i.takeWhile isSpaceByte)

/-- Fuel-indexed loop of nom's `many0`.  nom repeats the embedded parser
until it fails, and errors out if an iteration succeeds without consuming
input (infinite-loop protection); the `i1 = i` guard mirrors that check.
The fuel only bounds the recursion for Lean: every surviving iteration
consumes at least one byte, so fuel `i.length + 1` is never exhausted. -/
def many0Go (p : P α) : Nat → List Nat → Option (List Nat × List α)
  | 0, _ => none
  | fuel + 1, i =>
    match p i with
    | none => some (i, [])
    | some (i1, o) =>
      if i1 = i then none
      else
        match many0Go p fuel i1 with
        | none => none
        | some (r, os) => some (r, o :: os)

/-- nom's `many0`. -/
def many0P (p : P α) : P (List α) := fun i => many0Go p (i.length + 1) i

/-- nom's `many1`: the first application must succeed, then loop as `many0`. -/
def many1P (p : P α) : P (List α) := fun i =>
  match p i with
  | none => none
  | some (i1, o) =>
    match many0Go p (i1.length + 1) i1 with
    | none => none
    | some (r, os) => some (r, o :: os)

-- ## Error model (src/lib/lexer/error.rs)

/-- ParseError from error.rs.  The payloads of the three wrapped `std`
errors are not inspected anywhere in the repository, so they are modelled
as bare tags; `CharParseError` carries the zero-padded 4-byte buffer built
at the call site in lex.rs (error.rs's constructor declares a `u32`
parameter while lex.rs passes the byte buffer — the two files disagree;
we model the data actually passed), and `InvalidCharByteSequence` carries
the offending length, as in the source. -/
inductive ParseError
  | IntParseError
  | FloatParseError
  | StringParseError
  | CharParseError (buffer : List Nat)
  | InvalidCharByteSequence (len_was : Nat)
deriving DecidableEq, Repr

-- ## Token (src/lib/lexer/tokens.rs)

/-- Token from tokens.rs.  `Ident` and `StringLiteral` hold the UTF-8 byte
content of the Rust `String`; `CharLiteral` holds the Unicode scalar value;
`DecimalLiteral` holds the exact decimal rational (see the file comment). -/
inductive Token
  | Illegal
  | EOF
  | Ident (name : List Nat)
  | StringLiteral (s : List Nat)
  | CharLiteral (c : Nat)
  | NumericLiteral (n : Int)
  | DecimalLiteral (q : ℚ)
  | BoolLiteral (b : Bool)
  | Plus
  | Minus
  | Div
  | Mult
  | Modulo
  | Equal
  | Exp
  | NotEqual
  | GreaterThanEqual
  | LessThanEqual
  | GreaterThan
  | LessThan
  | Not
  | Assign
  | FunctionReturn
  | If
  | ElseIf
  | Else
  | While
  | Function
  | Return
  | Break
  | Continue
  | Let
  | Mut
  | LogicAnd
  | LogicOr
  | BooleanAnd
  | BooleanXor
  | BooleanOr
  | LShift
  | RShift
  | Semicolon
  | Colon
  | Comma
  | LParenthesis
  | RParenthesis
  | LBrace
  | RBrace
  | LBracket
  | RBracket
deriving DecidableEq, Repr

-- ## UTF-8 validation (Rust's `str::from_utf8`)

/-- Continuation byte `0x80..=0xBF`. -/
def isContByte (b : Nat) : Bool := 128 ≤ b && b ≤ 191

/-- Decode a byte list as UTF-8, returning the list of Unicode scalar
values, or `none` on invalid input.  This is exactly the validation table
Rust's `str::from_utf8` enforces: ASCII; 2-byte `C2..DF`; 3-byte `E0 A0..BF`,
`E1..EC 80..BF`, `ED 80..9F` (no surrogates), `EE..EF 80..BF`; 4-byte
`F0 90..BF`, `F1..F3 80..BF`, `F4 80..8F` (max `U+10FFFF`); every trailing
byte `80..BF`.  Overlong encodings are excluded by the leading-byte ranges. -/
def utf8Decode : List Nat → Option (List Nat)
  | [] => some []
  | b :: rest =>
    if b ≤ 127 then
      match utf8Decode rest with
      | none => none
      | some t => some (b :: t)
    else if 194 ≤ b && b ≤ 223 then
      match rest with
      | b2 :: r =>
        if isContByte b2 then
          match utf8Decode r with
          | none => none
          | some t => some (((b - 192) * 64 + (b2 - 128)) :: t)
        else none
      | _ => none
    else if 224 ≤ b && b ≤ 239 then
      match rest with
      | b2 :: b3 :: r =>
        if (if b = 224 then 160 ≤ b2 && b2 ≤ 191
            else if b = 237 then 128 ≤ b2 && b2 ≤ 159
            else isContByte b2) && isContByte b3 then
          match utf8Decode r with
          | none => none
          | some t => some (((b - 224) * 4096 + (b2 - 128) * 64 + (b3 - 128)) :: t)
        else none
      | _ => none
    else if 240 ≤ b && b ≤ 244 then
      match rest with
      | b2 :: b3 :: b4 :: r =>
        if ((if b = 240 then 144 ≤ b2 && b2 ≤ 191
             else if b = 244 then 128 ≤ b2 && b2 ≤ 143
             else isContByte b2) && isContByte b3) && isContByte b4 then
          match utf8Decode r with
          | none => none
          | some t =>
            some (((b - 240) * 262144 + (b2 - 128) * 4096 + (b3 - 128) * 64 + (b4 - 128)) :: t)
        else none
      | _ => none
    else none

-- ## Conversion helpers (lex.rs)

/-- Model of `convert_slice_to_utf8`: `str::from_utf8(s).map(to_owned)`.  A Rust
`String` is its UTF-8 byte content, so on success the bytes are returned
unchanged; a `Utf8Error` is wrapped as `StringParseError`. -/
def convert_slice_to_utf8 (s : List Nat) : Except ParseError (List Nat) :=
  match utf8Decode s with
  | none => Except.error ParseError.StringParseError
  | some _ => Except.ok s

/-- Model of `convert_slice_to_char`: reject byte spans of length 0 or > 4, then
require the UTF-8 decoding to yield exactly one scalar.  The error buffer is
the span zero-padded to 4 bytes, as built at the call site. -/
def convert_slice_to_char (s : List Nat) : Except ParseError Nat :=
  if s.length > 4 || s.length = 0 then
    Except.error (ParseError.InvalidCharByteSequence s.length)
  else
    match utf8Decode s with
    | none => Except.error ParseError.StringParseError
    | some chars =>
      match chars with
      | [c] => Except.ok c
      | _ => Except.error (ParseError.CharParseError (s ++ List.replicate (4 - s.length) 0))

/-- Numeric value of an ASCII digit string. -/
def digitsVal (l : List Nat) : Nat := l.foldl (fun a b => a * 10 + (b - 48)) 0

/-- Rust `i64::from_str`: optional single sign, one or more digits, value
within the `i64` range (overflow is an error). -/
def parse_i64 (s : List Nat) : Except ParseError Int :=
  let signDigits : Int × List Nat :=
    match s with
    | 43 :: r => (1, r)
    | 45 :: r => (-1, r)
    | r => (1, r)
  let sign := signDigits.1
  let digits := signDigits.2
  if digits.isEmpty || digits.any (fun b => ! isDigitByte b) then
    Except.error ParseError.IntParseError
  else
    let v : Int := sign * digitsVal digits
    if -(2 ^ 63) ≤ v ∧ v ≤ 2 ^ 63 - 1 then Except.ok v
    else Except.error ParseError.IntParseError

/-- Model of `convert_slice_to_number`: UTF-8 validation, then `i64` parsing. -/
def convert_slice_to_number (s : List Nat) : Except ParseError Int :=
  match convert_slice_to_utf8 s with
  | Except.error e => Except.error e
  | Except.ok r => parse_i64 r

/-- Rust `f64::from_str`, restricted to the only shape that ever reaches it
here (`-?digits.digits`, guaranteed by the recognizer in `input_to_decimal`),
and modelled as the exact decimal rational `mkRat`: binary floating-point
rounding is abstracted away.  Any other shape is a `FloatParseError`. -/
def parse_decimal (s : List Nat) : Except ParseError ℚ :=
  let signRest : Int × List Nat :=
    match s with
    | 45 :: r => (-1, r)
    | r => (1, r)
  let sign := signRest.1
  let rest := signRest.2
  let ip := rest.takeWhile isDigitByte
  match rest.drop ip.length with
  | 46 :: fr =>
    if ip.isEmpty || fr.isEmpty || fr.any (fun b => ! isDigitByte b) then
      Except.error ParseError.FloatParseError
    else
      Except.ok (mkRat (sign * ((digitsVal ip) * 10 ^ fr.length + digitsVal fr)) (10 ^ fr.length))
  | _ => Except.error ParseError.FloatParseError

/-- Model of `convert_slice_to_decimal`: UTF-8 validation, then `f64` parsing. -/
def convert_slice_to_decimal (s : List Nat) : Except ParseError ℚ :=
  match convert_slice_to_utf8 s with
  | Except.error e => Except.error e
  | Except.ok r => parse_decimal r

-- ## Fixed-string recognizers (the `syntax!` macro of lex.rs)

/-- Body of the `syntax!` macro: `map(tag(s), |_| t)`. -/
def tagToken (s : String) (t : Token) : P Token := pmap (tagP (strBytes s)) (fun _ => t)

def equal_operator : P Token := tagToken "==" Token.Equal

def not_equal_operator : P Token := tagToken "!=" Token.NotEqual

def exp_operator : P Token := tagToken "**" Token.Exp

def plus_operator : P Token := tagToken "+" Token.Plus

def modulo_operator : P Token := tagToken "%" Token.Modulo

def minus_operator : P Token := tagToken "-" Token.Minus

def mult_operator : P Token := tagToken "*" Token.Mult

def div_operator : P Token := tagToken "/" Token.Div

def not_operator : P Token := tagToken "!" Token.Not

def gte_operator : P Token := tagToken ">=" Token.GreaterThanEqual

def lte_operator : P Token := tagToken "<=" Token.LessThanEqual

def gt_operator : P Token := tagToken ">" Token.GreaterThan

def lt_operator : P Token := tagToken "<" Token.LessThan

def assign_operator : P Token := tagToken "=" Token.Assign

def function_return_operator : P Token := tagToken "->" Token.FunctionReturn

def lex_operator : P Token :=
  altList [equal_operator, not_equal_operator, exp_operator, plus_operator,
    modulo_operator, function_return_operator, minus_operator, div_operator,
    mult_operator, not_operator, gte_operator, lte_operator, gt_operator,
    lt_operator, assign_operator]

def semicolon_punctuation : P Token := tagToken ";" Token.Semicolon

def colon_punctuation : P Token := tagToken ":" Token.Colon

def comma_punctuation : P Token := tagToken "," Token.Comma

def lparenthesis_punctuation : P Token := tagToken "(" Token.LParenthesis

def rparenthesis_punctuation : P Token := tagToken ")" Token.RParenthesis

def lbrace_punctuation : P Token := tagToken "\x7b" Token.LBrace

def rbrace_punctuation : P Token := tagToken "\x7d" Token.RBrace

def lbracket_punctuation : P Token := tagToken "[" Token.LBracket

def rbracket_punctuation : P Token := tagToken "]" Token.RBracket

def lex_punctuation : P Token :=
  altList [semicolon_punctuation, colon_punctuation, comma_punctuation,
    lparenthesis_punctuation, rparenthesis_punctuation, lbrace_punctuation,
    rbrace_punctuation, lbracket_punctuation, rbracket_punctuation]

def and_boolean_operation : P Token := tagToken "&" Token.BooleanAnd

def or_boolean_operation : P Token := tagToken "|" Token.BooleanOr

def xor_boolean_operation : P Token := tagToken "^" Token.BooleanXor

def lshift_boolean_operation : P Token := tagToken "<<" Token.LShift

def rshift_boolean_operation : P Token := tagToken ">>" Token.RShift

def and_logic_operation : P Token := tagToken "&&" Token.LogicAnd

def or_logic_operation : P Token := tagToken "||" Token.LogicOr

def lex_boolean_operation : P Token :=
  altList [and_boolean_operation, or_boolean_operation, xor_boolean_operation,
    lshift_boolean_operation, rshift_boolean_operation]

def lex_logic_operation : P Token :=
  altList [and_logic_operation, or_logic_operation]

-- ## Strings and chars (lex.rs)

/-- Model of `string_body`: stop (without consuming) at `"`; decode the escape pairs
`\"`, `\'`, `\\` by dropping the backslash and keeping the escaped byte
(a backslash followed by anything else is an error, as is running out of
input); any other byte is kept verbatim.  Byte 34 is `"`, 92 is `\`,
39 is `'`. -/
def string_body : List Nat → Option (List Nat × List Nat)
  | [] => none
  | c :: rest =>
    if c = 34 then some (c :: rest, [])
    else if c = 92 then
      match rest with
      | [] => none
      | c2 :: rest2 =>
        if c2 = 34 || c2 = 39 || c2 = 92 then
          match string_body rest2 with
          | none => none
          | some (s, done) => some (s, c2 :: done)
        else none
    else
      match string_body rest with
      | none => none
      | some (s, done) => some (s, c :: done)

def input_to_string : P (List Nat) :=
  pmapRes (delimitedP (charP 34) string_body (charP 34)) convert_slice_to_utf8

def lex_string : P Token := pmap input_to_string Token.StringLiteral

/-- Model of `char_body`: same as `string_body` with `'` (byte 39) as the closing
delimiter. -/
def char_body : List Nat → Option (List Nat × List Nat)
  | [] => none
  | c :: rest =>
    if c = 39 then some (c :: rest, [])
    else if c = 92 then
      match rest with
      | [] => none
      | c2 :: rest2 =>
        if c2 = 34 || c2 = 39 || c2 = 92 then
          match char_body rest2 with
          | none => none
          | some (s, done) => some (s, c2 :: done)
        else none
    else
      match char_body rest with
      | none => none
      | some (s, done) => some (s, c :: done)

def input_to_char : P Nat :=
  pmapRes (delimitedP (tagP [39]) char_body (tagP [39])) convert_slice_to_char

def lex_char : P Token := pmap input_to_char Token.CharLiteral

-- ## Identifiers and reserved words (lex.rs)

/-- Model of `ident_underscore_prefix` in the source: one or more `_`, then at least
one alphanumeric byte, then any run of alphanumerics and `_`. -/
def ident_underscore_pfx : P (List Nat) :=
  recognizeP (tuple3P (many1P (tagP (strBytes "_"))) alphanumeric1
    (many0P (alt2 alphanumeric1 (tagP (strBytes "_")))))

/-- Model of `ident_alpha_prefix` in the source: a run of letters, then any run of
alphanumerics and `_`. -/
def ident_alpha_pfx : P (List Nat) :=
  recognizeP (pairP alpha1 (many0P (alt2 alphanumeric1 (tagP (strBytes "_")))))

/-- The conversion closure of `lex_ident_or_reserved`: UTF-8 validation of
the recognized text, then the fixed reserved-word table, falling back to an
identifier token. -/
def ident_or_keyword (i : List Nat) : Except ParseError Token :=
  match convert_slice_to_utf8 i with
  | Except.error e => Except.error e
  | Except.ok syn =>
    Except.ok (
      if syn = strBytes "let" then Token.Let
      else if syn = strBytes "mut" then Token.Mut
      else if syn = strBytes "fn" then Token.Function
      else if syn = strBytes "if" then Token.If
      else if syn = strBytes "elif" then Token.ElseIf
      else if syn = strBytes "else" then Token.Else
      else if syn = strBytes "while" then Token.While
      else if syn = strBytes "return" then Token.Return
      else if syn = strBytes "continue" then Token.Continue
      else if syn = strBytes "break" then Token.Break
      else if syn = strBytes "true" then Token.BoolLiteral true
      else if syn = strBytes "false" then Token.BoolLiteral false
      else Token.Ident syn)

def lex_ident_or_reserved : P Token :=
  pmapRes (recognizeP (alt2 ident_underscore_pfx ident_alpha_pfx))
    ident_or_keyword

-- ## Numbers and decimals (lex.rs)

def input_to_number : P Int :=
  pmapRes (recognizeP (pairP (optP (charP 45)) (many1P digit1))) convert_slice_to_number

def lex_number : P Token := pmap input_to_number Token.NumericLiteral

def input_to_decimal : P ℚ :=
  pmapRes (recognizeP (tuple3P (pairP (optP (charP 45)) (many1P digit1))
    (charP 46) (many1P digit1))) convert_slice_to_decimal

def lex_decimal : P Token := pmap input_to_decimal Token.DecimalLiteral

/-- Model of `lex_illegal`: consume exactly one byte and emit the unrecognized
marker. -/
def lex_illegal : P Token := pmap (takeP 1) (fun _ => Token.Illegal)

-- ## The concrete lexer (lex.rs)

/-- Model of `lex_token`: the priority-ordered alternation of all recognizers. -/
def lex_token : P Token :=
  altList [lex_decimal, lex_number, lex_punctuation, lex_logic_operation,
    lex_boolean_operation, lex_operator, lex_char, lex_ident_or_reserved,
    lex_string, lex_illegal]

def lex_tokens : P (List Token) :=
  many0P (delimitedP multispace0 lex_token multispace0)

/-- Model of `Lexer::lexer_tokens`: run `lex_tokens` and append the `EOF` marker. -/
def lexer_tokens (bytes : List Nat) : Option (List Nat × List Token) :=
  match lex_tokens bytes with
  | none => none
  | some (slice, result) => some (slice, result ++ [Token.EOF])

-- ## Token stream views (src/lib/lexer/tokens.rs)

/-- Tokens from tokens.rs: a window over a token slice.  The source's `end`
field is called `stop` here (`end` is reserved in Lean). -/
structure Tokens where
  tokens : List Token
  start : Nat
  stop : Nat
deriving DecidableEq, Repr

/-- Model of `Tokens::new`. -/
def Tokens.new (init : List Token) : Tokens :=
  ⟨init, 0, init.length⟩

/-- Model of `InputTake::take`: `&self.tokens[..count]` — Rust panics when `count`
exceeds the slice length; the panic is modelled as `none`. -/
def Tokens.take (t : Tokens) (count : Nat) : Option Tokens :=
  if count ≤ t.tokens.length then some ⟨t.tokens.take count, 0, count⟩ else none

/-- Model of `InputTake::take_split`: `split_at(count)` — panics (modelled `none`)
when `count` exceeds the slice length; each half carries `start = 0` and
`end` equal to its own length. -/
def Tokens.take_split (t : Tokens) (count : Nat) : Option (Tokens × Tokens) :=
  if count ≤ t.tokens.length then
    some (⟨t.tokens.take count, 0, (t.tokens.take count).length⟩,
          ⟨t.tokens.drop count, 0, (t.tokens.drop count).length⟩)
  else none

/-- Model of `InputLength::input_len`. -/
def Tokens.input_len (t : Tokens) : Nat := t.tokens.length

/-- Model of `Slice<Range<usize>>`: `&self.tokens[a..b]` with the window offsets
shifted by the range — Rust panics (modelled `none`) unless
`a ≤ b ≤ len`. -/
def Tokens.sliceRange (t : Tokens) (a b : Nat) : Option Tokens :=
  if a ≤ b ∧ b ≤ t.tokens.length then
    some ⟨(t.tokens.drop a).take (b - a), t.start + a, t.start + b⟩
  else none

/-- Model of `Slice<RangeFrom<usize>>`: delegates to
`slice(range.start .. self.end - self.start)`.  Nat subtraction truncates
where the Rust `usize` subtraction would overflow; reachable views always
have `start ≤ stop`, where the two agree. -/
def Tokens.sliceFrom (t : Tokens) (a : Nat) : Option Tokens :=
  t.sliceRange a (t.stop - t.start)

/-- Model of `Slice<RangeTo<usize>>`: delegates to `slice(0..range.end)`. -/
def Tokens.sliceTo (t : Tokens) (b : Nat) : Option Tokens :=
  t.sliceRange 0 b

/-- Model of `Slice<RangeFull>`: the identity view. -/
def Tokens.sliceFull (t : Tokens) : Tokens :=
  ⟨t.tokens, t.start, t.stop⟩

/-- Model of `InputIter::slice_index`: `Ok(count)` when the slice holds at least
`count` tokens, `Err(Needed::Unknown)` otherwise.  This is the graceful
failure path (an error RETURN, not a panic), modelled with `Except`. -/
def Tokens.slice_index (t : Tokens) (count : Nat) : Except Unit Nat :=
  if t.tokens.length ≥ count then Except.ok count else Except.error ()

/-- Views reachable from `Tokens::new` by (non-panicking) applications of
`take`, `take_split` and the four slice operations. -/
inductive Reachable (init : List Token) : Tokens → Prop
  | base : Reachable init (Tokens.new init)
  | take_step (t : Tokens) (c : Nat) (t' : Tokens) :
      Reachable init t → t.take c = some t' → Reachable init t'
  | split_left (t : Tokens) (c : Nat) (t1 t2 : Tokens) :
      Reachable init t → t.take_split c = some (t1, t2) → Reachable init t1
  | split_right (t : Tokens) (c : Nat) (t1 t2 : Tokens) :
      Reachable init t → t.take_split c = some (t1, t2) → Reachable init t2
  | slice_range (t : Tokens) (a b : Nat) (t' : Tokens) :
      Reachable init t → t.sliceRange a b = some t' → Reachable init t'
  | slice_from (t : Tokens) (a : Nat) (t' : Tokens) :
      Reachable init t → t.sliceFrom a = some t' → Reachable init t'
  | slice_to (t : Tokens) (b : Nat) (t' : Tokens) :
      Reachable init t → t.sliceTo b = some t' → Reachable init t'
  | slice_full (t : Tokens) :
      Reachable init t → Reachable init t.sliceFull

lemma Tokens.take_fields {t : Tokens} {c : Nat} {t' : Tokens}
    (h : t.take c = some t') :
    c ≤ t.tokens.length ∧ t' = ⟨t.tokens.take c, 0, c⟩ := by
  unfold Tokens.take at h
  split at h
  case isTrue hc => exact ⟨hc, (Option.some.inj h).symm⟩
  case isFalse hc => cases h

lemma Tokens.take_split_fields {t : Tokens} {c : Nat} {t1 t2 : Tokens}
    (h : t.take_split c = some (t1, t2)) :
    c ≤ t.tokens.length ∧
      t1 = ⟨t.tokens.take c, 0, (t.tokens.take c).length⟩ ∧
      t2 = ⟨t.tokens.drop c, 0, (t.tokens.drop c).length⟩ := by
  unfold Tokens.take_split at h
  split at h
  case isTrue hc =>
    have h2 := Option.some.inj h
    exact ⟨hc, (congrArg Prod.fst h2).symm, (congrArg Prod.snd h2).symm⟩
  case isFalse hc => cases h

lemma Tokens.sliceRange_fields {t : Tokens} {a b : Nat} {t' : Tokens}
    (h : t.sliceRange a b = some t') :
    a ≤ b ∧ b ≤ t.tokens.length ∧
      t' = ⟨(t.tokens.drop a).take (b - a), t.start + a, t.start + b⟩ := by
  unfold Tokens.sliceRange at h
  split at h
  case isTrue hc => exact ⟨hc.1, hc.2, (Option.some.inj h).symm⟩
  case isFalse hc => cases h

lemma Tokens.take_narrows {t : Tokens} {c : Nat} {t' : Tokens}
    (h : t.take c = some t') : t'.tokens.Sublist t.tokens := by
  rcases Tokens.take_fields h with ⟨-, rfl⟩
  exact List.take_sublist c t.tokens

lemma Tokens.take_split_narrows {t : Tokens} {c : Nat} {t1 t2 : Tokens}
    (h : t.take_split c = some (t1, t2)) :
    t1.tokens.Sublist t.tokens ∧ t2.tokens.Sublist t.tokens := by
  rcases Tokens.take_split_fields h with ⟨-, rfl, rfl⟩
  exact ⟨List.take_sublist c t.tokens, List.drop_sublist c t.tokens⟩

lemma Tokens.sliceRange_narrows {t : Tokens} {a b : Nat} {t' : Tokens}
    (h : t.sliceRange a b = some t') : t'.tokens.Sublist t.tokens := by
  rcases Tokens.sliceRange_fields h with ⟨-, -, rfl⟩
  exact ((t.tokens.drop a).take_sublist (b - a)).trans (t.tokens.drop_sublist a)

/-- C7.  Every view reachable from `Tokens::new` by `take`, `take_split` and
the four slice operations satisfies `start ≤ end ≤ length init` (with the
window size `end - start` equal to the length of the view's own token
slice), the view's token slice is a sublist of the original sequence, and
each of the operations only narrows the window: any view derived from `t`
by one more operation addresses a sublist of the tokens addressable
through `t` — hence never an index outside the original sequence's
bounds. -/
theorem tokens_view_invariant (init : List Token) (t : Tokens)
    (h : Reachable init t) :
    (t.start ≤ t.stop ∧ t.stop ≤ init.length ∧
      t.stop - t.start = t.tokens.length ∧ t.tokens.Sublist init) ∧
    (∀ c t', t.take c = some t' → t'.tokens.Sublist t.tokens) ∧
    (∀ c t1 t2, t.take_split c = some (t1, t2) →
      t1.tokens.Sublist t.tokens ∧ t2.tokens.Sublist t.tokens) ∧
    (∀ a b t', t.sliceRange a b = some t' → t'.tokens.Sublist t.tokens) ∧
    (∀ a t', t.sliceFrom a = some t' → t'.tokens.Sublist t.tokens) ∧
    (∀ b t', t.sliceTo b = some t' → t'.tokens.Sublist t.tokens) ∧
    t.sliceFull.tokens.Sublist t.tokens := by
  refine ⟨?_, fun c t' hc => Tokens.take_narrows hc,
    fun c t1 t2 hc => Tokens.take_split_narrows hc,
    fun a b t' hc => Tokens.sliceRange_narrows hc,
    fun a t' hc => Tokens.sliceRange_narrows hc,
    fun b t' hc => Tokens.sliceRange_narrows hc,
    List.Sublist.refl _⟩
  induction h with
  | base =>
    exact ⟨Nat.zero_le _, Nat.le_refl _, rfl, List.Sublist.refl _⟩
  | take_step t c t' _ hstep ih =>
    rcases Tokens.take_fields hstep with ⟨hc, rfl⟩
    obtain ⟨h1, h2, h3, h4⟩ := ih
    have hlen : t.tokens.length ≤ init.length := h4.length_le
    refine ⟨Nat.zero_le _, ?_, ?_, (List.take_sublist c t.tokens).trans h4⟩
    · dsimp only
      omega
    · dsimp only
      simp only [List.length_take]
      omega
  | split_left t c t1 t2 _ hstep ih =>
    rcases Tokens.take_split_fields hstep with ⟨hc, rfl, -⟩
    obtain ⟨h1, h2, h3, h4⟩ := ih
    have hlen : t.tokens.length ≤ init.length := h4.length_le
    refine ⟨Nat.zero_le _, ?_, ?_, (List.take_sublist c t.tokens).trans h4⟩
    · dsimp only
      simp only [List.length_take]
      omega
    · dsimp only
      omega
  | split_right t c t1 t2 _ hstep ih =>
    rcases Tokens.take_split_fields hstep with ⟨hc, -, rfl⟩
    obtain ⟨h1, h2, h3, h4⟩ := ih
    have hlen : t.tokens.length ≤ init.length := h4.length_le
    refine ⟨Nat.zero_le _, ?_, ?_, (List.drop_sublist c t.tokens).trans h4⟩
    · dsimp only
      simp only [List.length_drop]
      omega
    · dsimp only
      omega
  | slice_range t a b t' _ hstep ih =>
    rcases Tokens.sliceRange_fields hstep with ⟨hab, hb, rfl⟩
    obtain ⟨h1, h2, h3, h4⟩ := ih
    refine ⟨?_, ?_, ?_,
      ((t.tokens.drop a).take_sublist (b - a)).trans
        ((t.tokens.drop_sublist a).trans h4)⟩
    · dsimp only
      omega
    · dsimp only
      omega
    · dsimp only
      simp only [List.length_take, List.length_drop]
      omega
  | slice_from t a t' _ hstep ih =>
    unfold Tokens.sliceFrom at hstep
    rcases Tokens.sliceRange_fields hstep with ⟨hab, hb, rfl⟩
    obtain ⟨h1, h2, h3, h4⟩ := ih
    refine ⟨?_, ?_, ?_,
      ((t.tokens.drop a).take_sublist _).trans
        ((t.tokens.drop_sublist a).trans h4)⟩
    · dsimp only
      omega
    · dsimp only
      omega
    · dsimp only
      simp only [List.length_take, List.length_drop]
      omega
  | slice_to t b t' _ hstep ih =>
    unfold Tokens.sliceTo at hstep
    rcases Tokens.sliceRange_fields hstep with ⟨hab, hb, rfl⟩
    obtain ⟨h1, h2, h3, h4⟩ := ih
    refine ⟨?_, ?_, ?_,
      ((t.tokens.drop 0).take_sublist _).trans
        ((t.tokens.drop_sublist 0).trans h4)⟩
    · dsimp only
      omega
    · dsimp only
      omega
    · dsimp only
      simp only [List.length_take, List.length_drop]
      omega
  | slice_full t _ ih =>
    exact ih

/-- Witness for C7 at a concrete reachable view. -/
theorem tokens_view_invariant_witness :
    ((Tokens.new [Token.EOF]).start ≤ (Tokens.new [Token.EOF]).stop ∧
      (Tokens.new [Token.EOF]).stop ≤ [Token.EOF].length ∧
      (Tokens.new [Token.EOF]).stop - (Tokens.new [Token.EOF]).start =
        (Tokens.new [Token.EOF]).tokens.length ∧
      (Tokens.new [Token.EOF]).tokens.Sublist [Token.EOF]) :=
  (tokens_view_invariant [Token.EOF] (Tokens.new [Token.EOF]) Reachable.base).1

/-- C8 counterexample.  `InputTake::take` slices `&self.tokens[..count]`
unconditionally, so on a 1-token view `take(2)` hits an out-of-bounds slice
index and panics — modelled as `none`.  The method aborts rather than
returning a failure value, refuting the claim that `take(n)` returns a
failure when `n` exceeds the remaining length. -/
theorem take_out_of_bounds_panics : (Tokens.new [Token.EOF]).take 2 = none := by
  decide

/-- C8 as amended.  `InputTake::take(n)` returns the length-`n` prefix view
when `n` is within the view's token-slice length and panics (`none`)
otherwise; the graceful failure for overlong counts is provided by
`InputIter::slice_index`, which returns `Err(Needed::Unknown)` exactly when
`n` exceeds the length. -/
theorem take_bounds_behavior (t : Tokens) (n : Nat) :
    t.take n = (if n ≤ t.input_len then some ⟨t.tokens.take n, 0, n⟩ else none) ∧
    t.slice_index n =
      (if n ≤ t.input_len then Except.ok n else Except.error ()) := by
  constructor
  · rfl
  · unfold Tokens.slice_index Tokens.input_len
    by_cases h : n ≤ t.tokens.length
    · rw [if_pos h]
    · rw [if_neg h]

/-- C9.  For every view and in-bounds split index `k`, `take_split(k)`
returns a prefix view of length `k` and a suffix view of length
`len − k` whose token slices concatenate back to exactly the original
slice. -/
theorem take_split_reconstructs (t : Tokens) (k : Nat)
    (h : k ≤ t.tokens.length) :
    ∃ t1 t2, t.take_split k = some (t1, t2) ∧
      t1.tokens.length = k ∧
      t2.tokens.length = t.tokens.length - k ∧
      t1.tokens ++ t2.tokens = t.tokens := by
  refine ⟨⟨t.tokens.take k, 0, (t.tokens.take k).length⟩,
    ⟨t.tokens.drop k, 0, (t.tokens.drop k).length⟩, ?_, ?_, ?_, ?_⟩
  · unfold Tokens.take_split
    rw [if_pos h]
  · simp [List.length_take]
    omega
  · simp [List.length_drop]
  · exact List.take_append_drop k t.tokens

/-- Witness for C9 at a concrete view and split index. -/
theorem take_split_reconstructs_witness :
    ∃ t1 t2, (Tokens.new [Token.EOF, Token.Illegal]).take_split 1 = some (t1, t2) ∧
      t1.tokens.length = 1 ∧
      t2.tokens.length = (Tokens.new [Token.EOF, Token.Illegal]).tokens.length - 1 ∧
      t1.tokens ++ t2.tokens = (Tokens.new [Token.EOF, Token.Illegal]).tokens :=
  take_split_reconstructs (Tokens.new [Token.EOF, Token.Illegal]) 1 (by decide)

-- ## Concrete tokenization claims

/-- C2.  Longest/priority match: `"&&"` lexes to exactly one `LogicAnd`
token (then `EOF`), never two `BooleanAnd` tokens; `"=="` to exactly one
`Equal`, never two `Assign`; `"->"` to exactly one `FunctionReturn`, never
`Minus` followed by `GreaterThan`.  The returned lists are exact, so no
other token shapes occur. -/
theorem longest_match_tokens :
    lexer_tokens (strBytes "&&") = some ([], [Token.LogicAnd, Token.EOF]) ∧
    lexer_tokens (strBytes "==") = some ([], [Token.Equal, Token.EOF]) ∧
    lexer_tokens (strBytes "->") = some ([], [Token.FunctionReturn, Token.EOF]) := by
  refine ⟨?_, ?_, ?_⟩ <;> decide

/-- C4.  Keyword/identifier boundary: `"let"` is the keyword `Let`;
`"lettuce"` is the identifier `lettuce` (the keyword test runs on the full
identifier-shaped text, so it never captures a prefix); `"_x"` is the
identifier `_x`; a bare `"_"` is `Illegal`, not an identifier. -/
theorem keyword_identifier_boundary :
    lexer_tokens (strBytes "let") = some ([], [Token.Let, Token.EOF]) ∧
    lexer_tokens (strBytes "lettuce") =
      some ([], [Token.Ident (strBytes "lettuce"), Token.EOF]) ∧
    lexer_tokens (strBytes "_x") =
      some ([], [Token.Ident (strBytes "_x"), Token.EOF]) ∧
    lexer_tokens (strBytes "_") = some ([], [Token.Illegal, Token.EOF]) := by
  refine ⟨?_, ?_, ?_, ?_⟩ <;> decide

/-- C5.  Numeric disambiguation: `"123"` is the integer literal 123,
`"123.456"` the decimal literal 123.456 (`lex_decimal` is tried before
`lex_number`, so the integer recognizer never captures the integral part),
`"-5"` the integer literal −5, `"-5.5"` the decimal literal −5.5.  The
decimal values are the exact rationals of the written literals (see the
model of `f64` parsing). -/
theorem numeric_disambiguation :
    lexer_tokens (strBytes "123") =
      some ([], [Token.NumericLiteral 123, Token.EOF]) ∧
    lexer_tokens (strBytes "123.456") =
      some ([], [Token.DecimalLiteral (123.456 : ℚ), Token.EOF]) ∧
    lexer_tokens (strBytes "-5") =
      some ([], [Token.NumericLiteral (-5), Token.EOF]) ∧
    lexer_tokens (strBytes "-5.5") =
      some ([], [Token.DecimalLiteral (-5.5 : ℚ), Token.EOF]) := by
  have h1 : (123.456 : ℚ) = mkRat 123456 1000 := by
    rw [Rat.mkRat_eq_div]; norm_num
  have h2 : (-5.5 : ℚ) = mkRat (-55) 10 := by
    rw [Rat.mkRat_eq_div]; norm_num
  refine ⟨by decide, ?_, by decide, ?_⟩
  · rw [h1]; decide
  · rw [h2]; decide

/-- C6.  String escape decoding: the input bytes `" a \ " b "` (a string
literal whose body `a\"b` is the escaped form of `a"b`) lex to the
`StringLiteral` holding exactly the three characters `a"b` —
bytes 97, 34, 98. -/
theorem string_escape_roundtrip :
    lexer_tokens [34, 97, 92, 34, 98, 34] =
      some ([], [Token.StringLiteral [97, 34, 98], Token.EOF]) := by
  decide

/-- C10.  The numeric recognizers (with optional leading minus) run before
the operator recognizers, so `-` directly followed by digits is absorbed
into the literal even right after another number: `"1-5"` lexes to
`[1, −5, EOF]` with no `Minus` token. -/
theorem minus_absorbed_into_number :
    lexer_tokens (strBytes "1-5") =
      some ([], [Token.NumericLiteral 1, Token.NumericLiteral (-5), Token.EOF]) ∧
    Token.Minus ∉ [Token.NumericLiteral 1, Token.NumericLiteral (-5), Token.EOF] := by
  refine ⟨by decide, by decide⟩

/-- C3 counterexample.  On the input `''` (an empty character-literal body)
`Lexer::lexer_tokens` returns a complete token sequence — the two quote
bytes each fall through to the unrecognized marker — and not a decode
error: the structured `ParseError` produced inside the char recognizer is
swallowed by `map_res`, and the top-level alternation falls through to
`lex_illegal` (the repository's own `test_illegal` expects exactly this).
This refutes the claim that the caller receives a structured decode error
for such input. -/
theorem char_error_still_token_sequence :
    lexer_tokens [39, 39] =
      some ([], [Token.Illegal, Token.Illegal, Token.EOF]) := by
  decide

/-- C3 as amended.  A character-literal body of 0 decoded bytes or more
than 4 decoded bytes makes `convert_slice_to_char` return a structured
decode error identifying the failing stage (`InvalidCharByteSequence` with
the offending length); that error makes the char recognizer fail, the
top-level alternation falls through, and the caller of tokenization still
receives a complete token sequence in which the malformed literal's bytes
surface as `Illegal` markers — never a decode error and never a truncated
sequence. -/
theorem char_literal_decode_error_falls_through :
    convert_slice_to_char [] =
      Except.error (ParseError.InvalidCharByteSequence 0) ∧
    convert_slice_to_char [97, 97, 97, 97, 97] =
      Except.error (ParseError.InvalidCharByteSequence 5) ∧
    lexer_tokens [39, 39] =
      some ([], [Token.Illegal, Token.Illegal, Token.EOF]) := by
  exact ⟨rfl, rfl, by decide⟩

-- ## Totality of the lexer (claim C1): consumption lemmas

/-- A parser that, when it succeeds, leaves a residual no longer than its
input. -/
def Mono (p : P α) : Prop :=
  ∀ i r o, p i = some (r, o) → r.length ≤ i.length

/-- A parser that, when it succeeds, consumes at least one byte. -/
def Consumes (p : P α) : Prop :=
  ∀ i r o, p i = some (r, o) → r.length < i.length

lemma Consumes.mono {p : P α} (hp : Consumes p) : Mono p :=
  fun i r o h => Nat.le_of_lt (hp i r o h)

lemma pmap_mono {p : P α} {f : α → β} (hp : Mono p) : Mono (pmap p f) := by
  intro i r o h
  cases hpi : p i with
  | none => simp [pmap, hpi] at h
  | some x =>
    obtain ⟨r1, o1⟩ := x
    simp only [pmap, hpi, Option.some.injEq, Prod.mk.injEq] at h
    obtain ⟨rfl, -⟩ := h
    exact hp _ _ _ hpi

lemma pmap_consumes {p : P α} {f : α → β} (hp : Consumes p) :
    Consumes (pmap p f) := by
  intro i r o h
  cases hpi : p i with
  | none => simp [pmap, hpi] at h
  | some x =>
    obtain ⟨r1, o1⟩ := x
    simp only [pmap, hpi, Option.some.injEq, Prod.mk.injEq] at h
    obtain ⟨rfl, -⟩ := h
    exact hp _ _ _ hpi

lemma pmapRes_mono {p : P α} {f : α → Except ε β} (hp : Mono p) :
    Mono (pmapRes p f) := by
  intro i r o h
  cases hpi : p i with
  | none => simp [pmapRes, hpi] at h
  | some x =>
    obtain ⟨r1, o1⟩ := x
    cases hf : f o1 with
    | error e => simp [pmapRes, hpi, hf] at h
    | ok b =>
      simp only [pmapRes, hpi, hf, Option.some.injEq, Prod.mk.injEq] at h
      obtain ⟨rfl, -⟩ := h
      exact hp _ _ _ hpi

lemma pmapRes_consumes {p : P α} {f : α → Except ε β} (hp : Consumes p) :
    Consumes (pmapRes p f) := by
  intro i r o h
  cases hpi : p i with
  | none => simp [pmapRes, hpi] at h
  | some x =>
    obtain ⟨r1, o1⟩ := x
    cases hf : f o1 with
    | error e => simp [pmapRes, hpi, hf] at h
    | ok b =>
      simp only [pmapRes, hpi, hf, Option.some.injEq, Prod.mk.injEq] at h
      obtain ⟨rfl, -⟩ := h
      exact hp _ _ _ hpi

lemma tagP_consumes {s : List Nat} (hs : s ≠ []) : Consumes (tagP s) := by
  intro i r o h
  unfold tagP at h
  split at h
  case isTrue htake =>
    obtain ⟨rfl, -⟩ : i.drop s.length = r ∧ s = o := by
      simpa using h
    have hsl : s.length ≤ i.length := by
      have := congrArg List.length htake
      simp only [List.length_take] at this
      omega
    have hpos : 0 < s.length := List.length_pos.mpr hs
    simp only [List.length_drop]
    omega
  case isFalse => cases h

lemma takeP_consumes {n : Nat} (hn : 0 < n) : Consumes (takeP n) := by
  intro i r o h
  unfold takeP at h
  split at h
  case isTrue hle =>
    obtain ⟨rfl, -⟩ : i.drop n = r ∧ i.take n = o := by simpa using h
    simp only [List.length_drop]
    omega
  case isFalse => cases h

lemma charP_consumes {c : Nat} : Consumes (charP c) := by
  intro i r o h
  cases i with
  | nil => simp [charP] at h
  | cons b rest =>
    by_cases hb : b = c
    · simp only [charP, hb, if_pos rfl, Option.some.injEq, Prod.mk.injEq] at h
      obtain ⟨rfl, -⟩ := h
      simp
    · simp [charP, hb] at h

lemma span1_consumes {f : Nat → Bool} : Consumes (span1 f) := by
  intro i r o h
  unfold span1 at h
  split at h
  case isTrue => cases h
  case isFalse hne =>
    obtain ⟨rfl, -⟩ : i.drop (i.takeWhile f).length = r ∧ i.takeWhile f = o := by
      simpa using h
    have h1 : (i.takeWhile f).length ≤ i.length := by
      simpa using (List.takeWhile_sublist f).length_le
    have h2 : 0 < (i.takeWhile f).length := by
      cases he : i.takeWhile f with
      | nil => rw [he] at hne; simp at hne
      | cons a l => simp [he]
    simp only [List.length_drop]
    omega

lemma digit1_consumes : Consumes digit1 := span1_consumes

lemma alpha1_consumes : Consumes alpha1 := span1_consumes

lemma alphanumeric1_consumes : Consumes alphanumeric1 := span1_consumes

lemma multispace0_eq (i : List Nat) :
    multispace0 i = some (i.drop (i.takeWhile isSpaceByte).length,
      i.takeWhile isSpaceByte) := rfl

lemma multispace0_mono : Mono multispace0 := by
  intro i r o h
  rw [multispace0_eq] at h
  obtain ⟨rfl, -⟩ : i.drop (i.takeWhile isSpaceByte).length = r ∧ _ = o := by
    simpa using h
  simp

lemma optP_mono {p : P α} (hp : Mono p) : Mono (optP p) := by
  intro i r o h
  cases hpi : p i with
  | none =>
    simp only [optP, hpi, Option.some.injEq, Prod.mk.injEq] at h
    obtain ⟨rfl, -⟩ := h
    exact Nat.le_refl _
  | some x =>
    obtain ⟨r1, o1⟩ := x
    simp only [optP, hpi, Option.some.injEq, Prod.mk.injEq] at h
    obtain ⟨rfl, -⟩ := h
    exact hp _ _ _ hpi

lemma pairP_mono {p : P α} {q : P β} (hp : Mono p) (hq : Mono q) :
    Mono (pairP p q) := by
  intro i r o h
  cases hpi : p i with
  | none => simp [pairP, hpi] at h
  | some x =>
    obtain ⟨r1, a⟩ := x
    cases hqi : q r1 with
    | none => simp [pairP, hpi, hqi] at h
    | some y =>
      obtain ⟨r2, b⟩ := y
      simp only [pairP, hpi, hqi, Option.some.injEq, Prod.mk.injEq] at h
      obtain ⟨rfl, -⟩ := h
      exact le_trans (hq _ _ _ hqi) (hp _ _ _ hpi)

lemma pairP_consumes_right {p : P α} {q : P β} (hp : Mono p)
    (hq : Consumes q) : Consumes (pairP p q) := by
  intro i r o h
  cases hpi : p i with
  | none => simp [pairP, hpi] at h
  | some x =>
    obtain ⟨r1, a⟩ := x
    cases hqi : q r1 with
    | none => simp [pairP, hpi, hqi] at h
    | some y =>
      obtain ⟨r2, b⟩ := y
      simp only [pairP, hpi, hqi, Option.some.injEq, Prod.mk.injEq] at h
      obtain ⟨rfl, -⟩ := h
      exact lt_of_lt_of_le (hq _ _ _ hqi) (hp _ _ _ hpi)

lemma pairP_consumes_left {p : P α} {q : P β} (hp : Consumes p)
    (hq : Mono q) : Consumes (pairP p q) := by
  intro i r o h
  cases hpi : p i with
  | none => simp [pairP, hpi] at h
  | some x =>
    obtain ⟨r1, a⟩ := x
    cases hqi : q r1 with
    | none => simp [pairP, hpi, hqi] at h
    | some y =>
      obtain ⟨r2, b⟩ := y
      simp only [pairP, hpi, hqi, Option.some.injEq, Prod.mk.injEq] at h
      obtain ⟨rfl, -⟩ := h
      exact lt_of_le_of_lt (hq _ _ _ hqi) (hp _ _ _ hpi)

lemma tuple3P_consumes_first {p : P α} {q : P β} {s : P γ}
    (hp : Consumes p) (hq : Mono q) (hs : Mono s) :
    Consumes (tuple3P p q s) := by
  intro i r o h
  cases hpi : p i with
  | none => simp [tuple3P, hpi] at h
  | some x =>
    obtain ⟨r1, a⟩ := x
    cases hqi : q r1 with
    | none => simp [tuple3P, hpi, hqi] at h
    | some y =>
      obtain ⟨r2, b⟩ := y
      cases hsi : s r2 with
      | none => simp [tuple3P, hpi, hqi, hsi] at h
      | some z =>
        obtain ⟨r3, c⟩ := z
        simp only [tuple3P, hpi, hqi, hsi, Option.some.injEq, Prod.mk.injEq] at h
        obtain ⟨rfl, -⟩ := h
        exact lt_of_le_of_lt (le_trans (hs _ _ _ hsi) (hq _ _ _ hqi)) (hp _ _ _ hpi)

lemma tuple3P_consumes_mid {p : P α} {q : P β} {s : P γ}
    (hp : Mono p) (hq : Consumes q) (hs : Mono s) :
    Consumes (tuple3P p q s) := by
  intro i r o h
  cases hpi : p i with
  | none => simp [tuple3P, hpi] at h
  | some x =>
    obtain ⟨r1, a⟩ := x
    cases hqi : q r1 with
    | none => simp [tuple3P, hpi, hqi] at h
    | some y =>
      obtain ⟨r2, b⟩ := y
      cases hsi : s r2 with
      | none => simp [tuple3P, hpi, hqi, hsi] at h
      | some z =>
        obtain ⟨r3, c⟩ := z
        simp only [tuple3P, hpi, hqi, hsi, Option.some.injEq, Prod.mk.injEq] at h
        obtain ⟨rfl, -⟩ := h
        exact lt_of_le_of_lt (hs _ _ _ hsi)
          (lt_of_lt_of_le (hq _ _ _ hqi) (hp _ _ _ hpi))

lemma delimitedP_consumes_outer {p : P α} {q : P β} {s : P γ}
    (hp : Consumes p) (hq : Mono q) (hs : Mono s) :
    Consumes (delimitedP p q s) := by
  intro i r o h
  cases hpi : p i with
  | none => simp [delimitedP, hpi] at h
  | some x =>
    obtain ⟨r1, a⟩ := x
    cases hqi : q r1 with
    | none => simp [delimitedP, hpi, hqi] at h
    | some y =>
      obtain ⟨r2, b⟩ := y
      cases hsi : s r2 with
      | none => simp [delimitedP, hpi, hqi, hsi] at h
      | some z =>
        obtain ⟨r3, c⟩ := z
        simp only [delimitedP, hpi, hqi, hsi, Option.some.injEq, Prod.mk.injEq] at h
        obtain ⟨rfl, -⟩ := h
        exact lt_of_le_of_lt (le_trans (hs _ _ _ hsi) (hq _ _ _ hqi)) (hp _ _ _ hpi)

lemma delimitedP_consumes_inner {p : P α} {q : P β} {s : P γ}
    (hp : Mono p) (hq : Consumes q) (hs : Mono s) :
    Consumes (delimitedP p q s) := by
  intro i r o h
  cases hpi : p i with
  | none => simp [delimitedP, hpi] at h
  | some x =>
    obtain ⟨r1, a⟩ := x
    cases hqi : q r1 with
    | none => simp [delimitedP, hpi, hqi] at h
    | some y =>
      obtain ⟨r2, b⟩ := y
      cases hsi : s r2 with
      | none => simp [delimitedP, hpi, hqi, hsi] at h
      | some z =>
        obtain ⟨r3, c⟩ := z
        simp only [delimitedP, hpi, hqi, hsi, Option.some.injEq, Prod.mk.injEq] at h
        obtain ⟨rfl, -⟩ := h
        exact lt_of_le_of_lt (hs _ _ _ hsi)
          (lt_of_lt_of_le (hq _ _ _ hqi) (hp _ _ _ hpi))

/-- The middle parser of a successful `delimited` produced the value. -/
lemma delimitedP_mid {p : P α} {q : P β} {s : P γ} {i r : List Nat} {b : β}
    (h : delimitedP p q s i = some (r, b)) :
    ∃ i1 i2, q i1 = some (i2, b) := by
  cases hpi : p i with
  | none => simp [delimitedP, hpi] at h
  | some x =>
    obtain ⟨r1, a⟩ := x
    cases hqi : q r1 with
    | none => simp [delimitedP, hpi, hqi] at h
    | some y =>
      obtain ⟨r2, b1⟩ := y
      cases hsi : s r2 with
      | none => simp [delimitedP, hpi, hqi, hsi] at h
      | some z =>
        obtain ⟨r3, c⟩ := z
        simp only [delimitedP, hpi, hqi, hsi, Option.some.injEq, Prod.mk.injEq] at h
        obtain ⟨-, rfl⟩ := h
        exact ⟨r1, r2, hqi⟩

lemma recognizeP_mono {p : P α} (hp : Mono p) : Mono (recognizeP p) := by
  intro i r o h
  cases hpi : p i with
  | none => simp [recognizeP, hpi] at h
  | some x =>
    obtain ⟨r1, o1⟩ := x
    simp only [recognizeP, hpi, Option.some.injEq, Prod.mk.injEq] at h
    obtain ⟨rfl, -⟩ := h
    exact hp _ _ _ hpi

lemma recognizeP_consumes {p : P α} (hp : Consumes p) :
    Consumes (recognizeP p) := by
  intro i r o h
  cases hpi : p i with
  | none => simp [recognizeP, hpi] at h
  | some x =>
    obtain ⟨r1, o1⟩ := x
    simp only [recognizeP, hpi, Option.some.injEq, Prod.mk.injEq] at h
    obtain ⟨rfl, -⟩ := h
    exact hp _ _ _ hpi

lemma many0Go_mono {p : P α} (hp : Mono p) :
    ∀ fuel i r os, many0Go p fuel i = some (r, os) → r.length ≤ i.length := by
  intro fuel
  induction fuel with
  | zero => intro i r os h; cases h
  | succ f ih =>
    intro i r os h
    cases hpi : p i with
    | none =>
      simp only [many0Go, hpi, Option.some.injEq, Prod.mk.injEq] at h
      obtain ⟨rfl, -⟩ := h
      exact Nat.le_refl _
    | some x =>
      obtain ⟨i1, o⟩ := x
      by_cases heq : i1 = i
      · simp [many0Go, hpi, heq] at h
      · cases hrec : many0Go p f i1 with
        | none => simp [many0Go, hpi, heq, hrec] at h
        | some y =>
          obtain ⟨r2, os2⟩ := y
          simp only [many0Go, hpi, heq, hrec, if_neg heq, Option.some.injEq,
            Prod.mk.injEq] at h
          obtain ⟨rfl, -⟩ := h
          exact le_trans (ih _ _ _ hrec) (hp _ _ _ hpi)

lemma many0P_mono {p : P α} (hp : Mono p) : Mono (many0P p) := by
  intro i r os h
  exact many0Go_mono hp _ i r os h

lemma many1P_consumes {p : P α} (hp : Consumes p) : Consumes (many1P p) := by
  intro i r o h
  cases hpi : p i with
  | none => simp [many1P, hpi] at h
  | some x =>
    obtain ⟨i1, o1⟩ := x
    cases hrec : many0Go p (i1.length + 1) i1 with
    | none => simp [many1P, hpi, hrec] at h
    | some y =>
      obtain ⟨r2, os2⟩ := y
      simp only [many1P, hpi, hrec, Option.some.injEq, Prod.mk.injEq] at h
      obtain ⟨rfl, -⟩ := h
      exact lt_of_le_of_lt (many0Go_mono hp.mono _ _ _ _ hrec) (hp _ _ _ hpi)

lemma altList_some {ps : List (P α)} {i : List Nat} {x : List Nat × α}
    (h : altList ps i = some x) : ∃ p ∈ ps, p i = some x := by
  induction ps with
  | nil => simp [altList] at h
  | cons p rest ih =>
    cases hpi : p i with
    | none =>
      simp only [altList, hpi] at h
      obtain ⟨q, hq1, hq2⟩ := ih h
      exact ⟨q, List.mem_cons_of_mem p hq1, hq2⟩
    | some y =>
      simp only [altList, hpi] at h
      exact ⟨p, List.mem_cons_self p rest, by rw [hpi, h]⟩

lemma altList_consumes {ps : List (P α)} (hps : ∀ p ∈ ps, Consumes p) :
    Consumes (altList ps) := by
  intro i r o h
  obtain ⟨p, hmem, hp⟩ := altList_some h
  exact hps p hmem _ _ _ hp

lemma string_body_mono_aux :
    ∀ n i r o, i.length ≤ n → string_body i = some (r, o) →
      r.length ≤ i.length := by
  intro n
  induction n with
  | zero =>
    intro i r o hle h
    cases i with
    | nil => cases h
    | cons c rest => simp at hle
  | succ n ih =>
    intro i r o hle h
    cases i with
    | nil => cases h
    | cons c rest =>
      rw [string_body.eq_def] at h
      dsimp only at h
      by_cases h34 : c = 34
      · rw [if_pos h34] at h
        obtain ⟨rfl, -⟩ : c :: rest = r ∧ ([] : List Nat) = o := by simpa using h
        exact Nat.le_refl _
      · rw [if_neg h34] at h
        by_cases h92 : c = 92
        · rw [if_pos h92] at h
          cases rest with
          | nil => simp at h
          | cons c2 rest2 =>
            dsimp only at h
            by_cases hesc : (c2 = 34 || c2 = 39 || c2 = 92 : Bool)
            · rw [if_pos hesc] at h
              cases hrec : string_body rest2 with
              | none => rw [hrec] at h; cases h
              | some y =>
                obtain ⟨s, done⟩ := y
                rw [hrec] at h
                obtain ⟨rfl, -⟩ : s = r ∧ c2 :: done = o := by simpa using h
                have hlen : rest2.length ≤ n := by
                  simp only [List.length_cons] at hle
                  omega
                have := ih rest2 _ done hlen hrec
                simp only [List.length_cons]
                omega
            · rw [if_neg hesc] at h
              cases h
        · rw [if_neg h92] at h
          cases hrec : string_body rest with
          | none => rw [hrec] at h; cases h
          | some y =>
            obtain ⟨s, done⟩ := y
            rw [hrec] at h
            obtain ⟨rfl, -⟩ : s = r ∧ c :: done = o := by simpa using h
            have hlen : rest.length ≤ n := by
              simp only [List.length_cons] at hle
              omega
            have := ih rest _ done hlen hrec
            simp only [List.length_cons]
            omega

lemma string_body_mono : ∀ i r o, string_body i = some (r, o) →
    r.length ≤ i.length :=
  fun i r o h => string_body_mono_aux i.length i r o (Nat.le_refl _) h

lemma char_body_mono_aux :
    ∀ n i r o, i.length ≤ n → char_body i = some (r, o) →
      r.length ≤ i.length := by
  intro n
  induction n with
  | zero =>
    intro i r o hle h
    cases i with
    | nil => cases h
    | cons c rest => simp at hle
  | succ n ih =>
    intro i r o hle h
    cases i with
    | nil => cases h
    | cons c rest =>
      rw [char_body.eq_def] at h
      dsimp only at h
      by_cases h39 : c = 39
      · rw [if_pos h39] at h
        obtain ⟨rfl, -⟩ : c :: rest = r ∧ ([] : List Nat) = o := by simpa using h
        exact Nat.le_refl _
      · rw [if_neg h39] at h
        by_cases h92 : c = 92
        · rw [if_pos h92] at h
          cases rest with
          | nil => simp at h
          | cons c2 rest2 =>
            dsimp only at h
            by_cases hesc : (c2 = 34 || c2 = 39 || c2 = 92 : Bool)
            · rw [if_pos hesc] at h
              cases hrec : char_body rest2 with
              | none => rw [hrec] at h; cases h
              | some y =>
                obtain ⟨s, done⟩ := y
                rw [hrec] at h
                obtain ⟨rfl, -⟩ : s = r ∧ c2 :: done = o := by simpa using h
                have hlen : rest2.length ≤ n := by
                  simp only [List.length_cons] at hle
                  omega
                have := ih rest2 _ done hlen hrec
                simp only [List.length_cons]
                omega
            · rw [if_neg hesc] at h
              cases h
        · rw [if_neg h92] at h
          cases hrec : char_body rest with
          | none => rw [hrec] at h; cases h
          | some y =>
            obtain ⟨s, done⟩ := y
            rw [hrec] at h
            obtain ⟨rfl, -⟩ : s = r ∧ c :: done = o := by simpa using h
            have hlen : rest.length ≤ n := by
              simp only [List.length_cons] at hle
              omega
            have := ih rest _ done hlen hrec
            simp only [List.length_cons]
            omega

lemma char_body_mono : ∀ i r o, char_body i = some (r, o) →
    r.length ≤ i.length :=
  fun i r o h => char_body_mono_aux i.length i r o (Nat.le_refl _) h

lemma tagToken_consumes {s : String} {t : Token} (hs : strBytes s ≠ []) :
    Consumes (tagToken s t) := pmap_consumes (tagP_consumes hs)

lemma lex_operator_consumes : Consumes lex_operator := by
  apply altList_consumes
  intro p hp
  simp only [lex_operator, List.mem_cons, List.not_mem_nil, or_false] at hp
  rcases hp with rfl | rfl | rfl | rfl | rfl | rfl | rfl | rfl | rfl | rfl |
    rfl | rfl | rfl | rfl | rfl
  all_goals exact tagToken_consumes (by decide)

lemma lex_punctuation_consumes : Consumes lex_punctuation := by
  apply altList_consumes
  intro p hp
  simp only [lex_punctuation, List.mem_cons, List.not_mem_nil, or_false] at hp
  rcases hp with rfl | rfl | rfl | rfl | rfl | rfl | rfl | rfl | rfl
  all_goals exact tagToken_consumes (by decide)

lemma lex_boolean_operation_consumes : Consumes lex_boolean_operation := by
  apply altList_consumes
  intro p hp
  simp only [lex_boolean_operation, List.mem_cons, List.not_mem_nil, or_false] at hp
  rcases hp with rfl | rfl | rfl | rfl | rfl
  all_goals exact tagToken_consumes (by decide)

lemma lex_logic_operation_consumes : Consumes lex_logic_operation := by
  apply altList_consumes
  intro p hp
  simp only [lex_logic_operation, List.mem_cons, List.not_mem_nil, or_false] at hp
  rcases hp with rfl | rfl
  all_goals exact tagToken_consumes (by decide)

lemma lex_number_consumes : Consumes lex_number :=
  pmap_consumes (pmapRes_consumes (recognizeP_consumes
    (pairP_consumes_right (optP_mono charP_consumes.mono)
      (many1P_consumes digit1_consumes))))

lemma lex_decimal_consumes : Consumes lex_decimal :=
  pmap_consumes (pmapRes_consumes (recognizeP_consumes
    (tuple3P_consumes_mid
      (pairP_mono (optP_mono charP_consumes.mono)
        (many1P_consumes digit1_consumes).mono)
      charP_consumes
      (many1P_consumes digit1_consumes).mono)))

lemma lex_string_consumes : Consumes lex_string :=
  pmap_consumes (pmapRes_consumes (delimitedP_consumes_outer
    charP_consumes string_body_mono charP_consumes.mono))

lemma lex_char_consumes : Consumes lex_char :=
  pmap_consumes (pmapRes_consumes (delimitedP_consumes_outer
    (tagP_consumes (by decide)) char_body_mono
    (tagP_consumes (by decide)).mono))

lemma ident_tail_mono : Mono (many0P (alt2 alphanumeric1 (tagP (strBytes "_")))) := by
  apply many0P_mono
  apply Consumes.mono
  apply altList_consumes
  intro p hp
  simp only [List.mem_cons, List.not_mem_nil, or_false] at hp
  rcases hp with rfl | rfl
  · exact alphanumeric1_consumes
  · exact tagP_consumes (by decide)

lemma ident_underscore_pfx_consumes : Consumes ident_underscore_pfx :=
  recognizeP_consumes (tuple3P_consumes_first
    (many1P_consumes (tagP_consumes (by decide)))
    alphanumeric1_consumes.mono ident_tail_mono)

lemma ident_alpha_pfx_consumes : Consumes ident_alpha_pfx :=
  recognizeP_consumes (pairP_consumes_left alpha1_consumes ident_tail_mono)

lemma lex_ident_or_reserved_consumes : Consumes lex_ident_or_reserved := by
  apply pmapRes_consumes
  apply recognizeP_consumes
  apply altList_consumes
  intro p hp
  simp only [List.mem_cons, List.not_mem_nil, or_false] at hp
  rcases hp with rfl | rfl
  · exact ident_underscore_pfx_consumes
  · exact ident_alpha_pfx_consumes

lemma lex_illegal_consumes : Consumes lex_illegal :=
  pmap_consumes (takeP_consumes Nat.one_pos)

lemma lex_token_consumes : Consumes lex_token := by
  apply altList_consumes
  intro p hp
  simp only [lex_token, List.mem_cons, List.not_mem_nil, or_false] at hp
  rcases hp with rfl | rfl | rfl | rfl | rfl | rfl | rfl | rfl | rfl | rfl
  · exact lex_decimal_consumes
  · exact lex_number_consumes
  · exact lex_punctuation_consumes
  · exact lex_logic_operation_consumes
  · exact lex_boolean_operation_consumes
  · exact lex_operator_consumes
  · exact lex_char_consumes
  · exact lex_ident_or_reserved_consumes
  · exact lex_string_consumes
  · exact lex_illegal_consumes

lemma pmap_out {p : P α} {f : α → β} {i r : List Nat} {o : β}
    (h : pmap p f i = some (r, o)) : ∃ a, o = f a := by
  cases hpi : p i with
  | none => simp [pmap, hpi] at h
  | some x =>
    obtain ⟨r1, o1⟩ := x
    simp only [pmap, hpi, Option.some.injEq, Prod.mk.injEq] at h
    exact ⟨o1, h.2.symm⟩

lemma pmapRes_out {p : P α} {f : α → Except ε β} {i r : List Nat} {b : β}
    (h : pmapRes p f i = some (r, b)) : ∃ a, f a = Except.ok b := by
  cases hpi : p i with
  | none => simp [pmapRes, hpi] at h
  | some x =>
    obtain ⟨r1, o1⟩ := x
    cases hf : f o1 with
    | error e => simp [pmapRes, hpi, hf] at h
    | ok b1 =>
      simp only [pmapRes, hpi, hf, Option.some.injEq, Prod.mk.injEq] at h
      exact ⟨o1, by rw [hf, h.2]⟩

lemma tagToken_out {s : String} {t : Token} {i r : List Nat} {o : Token}
    (h : tagToken s t i = some (r, o)) : o = t := by
  obtain ⟨a, ha⟩ := pmap_out h
  exact ha

lemma tagToken_ne_eof {s : String} {t0 : Token} (ht : t0 ≠ Token.EOF) :
    ∀ i r t, tagToken s t0 i = some (r, t) → t ≠ Token.EOF :=
  fun _ _ _ h => (tagToken_out h) ▸ ht

set_option maxHeartbeats 1600000 in
lemma ident_or_keyword_ne_eof {a : List Nat} {t : Token}
    (h : ident_or_keyword a = Except.ok t) : t ≠ Token.EOF := by
  unfold ident_or_keyword at h
  cases hu : convert_slice_to_utf8 a with
  | error e => rw [hu] at h; cases h
  | ok syn =>
    rw [hu] at h
    obtain rfl : _ = t := Except.ok.inj h
    split_ifs
    all_goals exact nofun

/-- No recognizer of `lex_token` ever emits the `EOF` marker: it is appended
only once, by `lexer_tokens`. -/
lemma lex_token_ne_eof :
    ∀ i r t, lex_token i = some (r, t) → t ≠ Token.EOF := by
  intro i r t h
  obtain ⟨p, hmem, hp⟩ := altList_some h
  simp only [lex_token, List.mem_cons, List.not_mem_nil, or_false] at hmem
  rcases hmem with rfl | rfl | rfl | rfl | rfl | rfl | rfl | rfl | rfl | rfl
  · obtain ⟨a, rfl⟩ := pmap_out hp
    exact nofun
  · obtain ⟨a, rfl⟩ := pmap_out hp
    exact nofun
  · obtain ⟨q, hqmem, hq⟩ := altList_some hp
    simp only [lex_punctuation, List.mem_cons, List.not_mem_nil, or_false] at hqmem
    rcases hqmem with rfl | rfl | rfl | rfl | rfl | rfl | rfl | rfl | rfl
    all_goals exact tagToken_ne_eof (by decide) _ _ _ hq
  · obtain ⟨q, hqmem, hq⟩ := altList_some hp
    simp only [lex_logic_operation, List.mem_cons, List.not_mem_nil, or_false] at hqmem
    rcases hqmem with rfl | rfl
    all_goals exact tagToken_ne_eof (by decide) _ _ _ hq
  · obtain ⟨q, hqmem, hq⟩ := altList_some hp
    simp only [lex_boolean_operation, List.mem_cons, List.not_mem_nil, or_false] at hqmem
    rcases hqmem with rfl | rfl | rfl | rfl | rfl
    all_goals exact tagToken_ne_eof (by decide) _ _ _ hq
  · obtain ⟨q, hqmem, hq⟩ := altList_some hp
    simp only [lex_operator, List.mem_cons, List.not_mem_nil, or_false] at hqmem
    rcases hqmem with rfl | rfl | rfl | rfl | rfl | rfl | rfl | rfl | rfl | rfl |
      rfl | rfl | rfl | rfl | rfl
    all_goals exact tagToken_ne_eof (by decide) _ _ _ hq
  · obtain ⟨a, rfl⟩ := pmap_out hp
    exact nofun
  · obtain ⟨a, hfa⟩ := pmapRes_out hp
    exact ident_or_keyword_ne_eof hfa
  · obtain ⟨a, rfl⟩ := pmap_out hp
    exact nofun
  · obtain ⟨a, rfl⟩ := pmap_out hp
    exact nofun

/-- Lemma: `many0Go` always succeeds when its embedded parser consumes on success
and the fuel exceeds the input length, and no collected token is `EOF` when
the embedded parser never emits one. -/
lemma many0Go_some {p : P Token} (hp : Consumes p)
    (hne : ∀ i r t, p i = some (r, t) → t ≠ Token.EOF) :
    ∀ fuel i, i.length < fuel →
      ∃ r os, many0Go p fuel i = some (r, os) ∧ Token.EOF ∉ os := by
  intro fuel
  induction fuel with
  | zero => intro i h; omega
  | succ f ih =>
    intro i hfi
    cases hpi : p i with
    | none => exact ⟨i, [], by simp [many0Go, hpi], by simp⟩
    | some x =>
      obtain ⟨i1, o⟩ := x
      have hcons := hp _ _ _ hpi
      have hneq : i1 ≠ i := fun he => absurd (he ▸ hcons) (lt_irrefl _)
      have hi1 : i1.length < f := by omega
      obtain ⟨r, os, hrec, hnotin⟩ := ih i1 hi1
      refine ⟨r, o :: os, ?_, ?_⟩
      · simp only [many0Go, hpi, if_neg hneq, hrec]
      · simp only [List.mem_cons, not_or]
        exact ⟨fun he => hne _ _ _ hpi he.symm, hnotin⟩

/-- C1.  For every byte input, `Lexer::lexer_tokens` succeeds (it returns
`Ok`, never an error — and the model is a total function, so it never
panics and always terminates), and the returned token sequence has the
shape `ts ++ [EOF]` with `EOF ∉ ts`: it is non-empty, its last element is
`EOF`, and `EOF` occurs at no earlier position. -/
theorem lexer_tokens_total_eof (input : List Nat) :
    ∃ rest ts, lexer_tokens input = some (rest, ts ++ [Token.EOF]) ∧
      Token.EOF ∉ ts := by
  have hp : Consumes (delimitedP multispace0 lex_token multispace0) :=
    delimitedP_consumes_inner multispace0_mono lex_token_consumes
      multispace0_mono
  have hne : ∀ i r t,
      delimitedP multispace0 lex_token multispace0 i = some (r, t) →
        t ≠ Token.EOF := by
    intro i r t h
    obtain ⟨i1, i2, hq⟩ := delimitedP_mid h
    exact lex_token_ne_eof _ _ _ hq
  obtain ⟨r, os, hrun, hnotin⟩ :=
    many0Go_some hp hne (input.length + 1) input (Nat.lt_succ_self _)
  refine ⟨r, os, ?_, hnotin⟩
  unfold lexer_tokens lex_tokens many0P
  rw [hrun]
